import Mathlib

/-!
Verification development for the r1cs-paillier repository.

The repository proves, in zero knowledge, correctness of a Paillier-style
encryption c = g^m * r^n mod n^2 inside an R1CS constraint system.  The file
src/src/lib.rs (present) wires the relation circuit `TestCircuit` and the test
harness; the big-integer gadget module `bn` (declared by `mod bn;` in lib.rs)
is not part of the provided sources, so the gadget semantics below are
modelled from the specification, while the circuit wiring follows lib.rs.
-/

set_option maxRecDepth 100000
set_option exponentiation.threshold 600

namespace R1CSPaillier

/-- Limb width, from `const W: usize = 32` in src/src/lib.rs. -/
def W : ℕ := 32

/-- Modulus bit length, from `const N: usize = 1024` in src/src/lib.rs. -/
def N : ℕ := 1024

/-- Little-endian bit sequence of a natural number, `len` bits long
(bit i is `v / 2^i % 2`). -/
def natBits : ℕ → ℕ → List Bool
  | 0, _ => []
  | len + 1, v => (v % 2 == 1) :: natBits len (v / 2)

/-- Value of a little-endian bit sequence: sum of bit_i * 2^i. -/
def bitsVal : List Bool → ℕ
  | [] => 0
  | b :: rest => (if b then 1 else 0) + 2 * bitsVal rest

theorem natBits_length (len v : ℕ) : (natBits len v).length = len := by
  induction len generalizing v with
  | zero => rfl
  | succ l ih => simp [natBits, ih]

theorem bitsVal_natBits (len v : ℕ) : bitsVal (natBits len v) = v % 2 ^ len := by
  induction len generalizing v with
  | zero => simp [natBits, bitsVal, Nat.mod_one]
  | succ l ih =>
      have hsplit : v % 2 ^ (l + 1) = v % 2 + 2 * (v / 2 % 2 ^ l) := by
        rw [pow_succ, mul_comm (2 ^ l) 2, Nat.mod_mul]
      rw [natBits, bitsVal, ih, hsplit]
      rcases Nat.mod_two_eq_zero_or_one v with h | h <;> simp [h]

theorem bitsVal_natBits_of_lt {len v : ℕ} (h : v < 2 ^ len) :
    bitsVal (natBits len v) = v := by
  rw [bitsVal_natBits, Nat.mod_eq_of_lt h]

theorem natBits_add (s t v : ℕ) :
    natBits (s + t) v = natBits s v ++ natBits t (v / 2 ^ s) := by
  induction s generalizing v with
  | zero => simp [natBits]
  | succ l ih =>
      have hst : l + 1 + t = (l + t) + 1 := by omega
      rw [hst, natBits, natBits, ih (v / 2)]
      have : v / 2 / 2 ^ l = v / 2 ^ (l + 1) := by
        rw [Nat.div_div_eq_div_mul, pow_succ, mul_comm (2 ^ l) 2]
      rw [this]
      rfl

theorem bitsVal_append (xs ys : List Bool) :
    bitsVal (xs ++ ys) = bitsVal xs + 2 ^ xs.length * bitsVal ys := by
  induction xs with
  | nil => simp [bitsVal]
  | cons b rest ih =>
      show (if b then 1 else 0) + 2 * bitsVal (rest ++ ys)
          = ((if b then 1 else 0) + 2 * bitsVal rest) + 2 ^ (b :: rest).length * bitsVal ys
      rw [ih, List.length_cons]
      ring

theorem bitsVal_lt (bits : List Bool) : bitsVal bits < 2 ^ bits.length := by
  induction bits with
  | nil => simp [bitsVal]
  | cons b rest ih =>
      simp only [bitsVal, List.length_cons, pow_succ]
      rcases b with _ | _ <;> simp <;> omega

/-- Modelled from the spec: §4.4 `rem(modulus, bound)` of the `bn` gadget
module, which is declared by `mod bn;` in src/src/lib.rs but whose source is
not provided.  Satisfaction of the reduction gadget on a dividend, modulus and
output means the prover supplied a quotient q with
`dividend = q * modulus + out` together with the order check `out < modulus`. -/
def remRel (dividend M out : ℕ) : Prop :=
  ∃ q, dividend = q * M + out ∧ out < M

/-- Modelled from the spec: §4.5 `powm` of the missing `bn` gadget module.
Square-and-multiply over the little-endian exponent bits: each step squares
the accumulator (unreduced multiply + `rem`), computes the multiplied branch
(unreduced multiply + `rem`) and selects it with the arithmetic selector
`bit*(a-b)+b`.  The head of the list is the least significant bit and is
processed by the outermost step; the accumulator starts at 1. -/
def powmRel (base M : ℕ) : List Bool → ℕ → Prop
  | [], out => out = 1
  | b :: rest, out =>
      ∃ acc sq t, powmRel base M rest acc ∧ remRel (acc * acc) M sq ∧
        remRel (sq * base) M t ∧ out = if b then t else sq

/-- Executable companion of `powmRel`: the unique value of the
square-and-multiply accumulator chain for a given base, modulus and
little-endian exponent bits. -/
def powmFn (base M : ℕ) : List Bool → ℕ
  | [] => 1
  | b :: rest =>
      let acc := powmFn base M rest
      let sq := acc * acc % M
      if b then sq * base % M else sq

theorem remRel_out_eq {dividend M out : ℕ} (h : remRel dividend M out) :
    out = dividend % M := by
  obtain ⟨q, hq, hlt⟩ := h
  rw [hq, Nat.add_comm, Nat.add_mul_mod_self_right, Nat.mod_eq_of_lt hlt]

theorem remRel_pos {dividend M out : ℕ} (h : remRel dividend M out) : 0 < M := by
  obtain ⟨q, _, hlt⟩ := h
  exact lt_of_le_of_lt (Nat.zero_le out) hlt

theorem remRel_intro (dividend M : ℕ) (hM : 0 < M) :
    remRel dividend M (dividend % M) := by
  refine ⟨dividend / M, ?_, Nat.mod_lt _ hM⟩
  rw [mul_comm]
  exact (Nat.div_add_mod dividend M).symm

theorem powmRel_powmFn {base M : ℕ} (hM : 0 < M) (bits : List Bool) :
    powmRel base M bits (powmFn base M bits) := by
  induction bits with
  | nil => rfl
  | cons b rest ih =>
      exact ⟨powmFn base M rest, powmFn base M rest * powmFn base M rest % M,
        powmFn base M rest * powmFn base M rest % M * base % M,
        ih, remRel_intro _ _ hM, remRel_intro _ _ hM, by cases b <;> rfl⟩

theorem powmRel_sound {base M : ℕ} {bits : List Bool} {out : ℕ}
    (h : powmRel base M bits out) : out = powmFn base M bits := by
  induction bits generalizing out with
  | nil => exact h
  | cons b rest ih =>
      obtain ⟨acc, sq, t, hacc, hsq, ht, hout⟩ := h
      have h1 : acc = powmFn base M rest := ih hacc
      have h2 : sq = acc * acc % M := remRel_out_eq hsq
      have h3 : t = sq * base % M := remRel_out_eq ht
      subst h1
      subst h3
      subst h2
      rw [hout]
      cases b <;> rfl

theorem powmRel_pos {base M : ℕ} {b : Bool} {rest : List Bool} {out : ℕ}
    (h : powmRel base M (b :: rest) out) : 0 < M := by
  obtain ⟨_, _, _, _, hsq, _, _⟩ := h
  exact remRel_pos hsq

theorem mul_mod_congr {a b c d M : ℕ} (h1 : a % M = c % M) (h2 : b % M = d % M) :
    a * b % M = c * d % M := by
  rw [Nat.mul_mod, h1, h2, ← Nat.mul_mod]

theorem powmFn_mod (base M : ℕ) (bits : List Bool) :
    powmFn base M bits % M = base ^ bitsVal bits % M := by
  induction bits with
  | nil => simp [powmFn, bitsVal]
  | cons b rest ih =>
      have hsq : powmFn base M rest * powmFn base M rest % M
          = base ^ (bitsVal rest + bitsVal rest) % M := by
        rw [mul_mod_congr ih ih, ← pow_add]
      rcases b with _ | _
      · show powmFn base M rest * powmFn base M rest % M % M = _
        rw [Nat.mod_mod_of_dvd _ dvd_rfl, hsq]
        have he : bitsVal (false :: rest) = bitsVal rest + bitsVal rest := by
          show (if False then 1 else 0) + 2 * bitsVal rest = _
          simp
          ring
        rw [he]
      · show powmFn base M rest * powmFn base M rest % M * base % M % M = _
        have hb : base % M = base ^ 1 % M := by rw [pow_one]
        have hs2 : powmFn base M rest * powmFn base M rest % M % M
            = base ^ (bitsVal rest + bitsVal rest) % M := by
          rw [Nat.mod_mod_of_dvd _ dvd_rfl, hsq]
        rw [Nat.mod_mod_of_dvd _ dvd_rfl, mul_mod_congr hs2 hb, ← pow_add]
        have he : bitsVal (true :: rest) = bitsVal rest + bitsVal rest + 1 := by
          show (if True then 1 else 0) + 2 * bitsVal rest = _
          simp
          ring
        rw [he]

theorem powmFn_lt {base M : ℕ} (hM : 0 < M) (b : Bool) (rest : List Bool) :
    powmFn base M (b :: rest) < M := by
  rcases b with _ | _
  · exact Nat.mod_lt _ hM
  · exact Nat.mod_lt _ hM

theorem powmFn_eq {base M : ℕ} (hM : 0 < M) (b : Bool) (rest : List Bool) :
    powmFn base M (b :: rest) = base ^ bitsVal (b :: rest) % M := by
  rw [← Nat.mod_eq_of_lt (powmFn_lt hM b rest), powmFn_mod]

/-- Modelled from the spec: §3's BigUintVar of the `bn` gadget module, which
is declared by `mod bn;` in src/src/lib.rs but whose source is not provided —
an ordered little-endian sequence of limbs together with an explicit
bit-length bound. -/
structure BigUintVar where
  limbs : List ℕ
  bound : ℕ

/-- Value of a limb sequence read in little-endian base 2^w. -/
def valueOfLimbs (w : ℕ) : List ℕ → ℕ
  | [] => 0
  | l :: rest => l + 2 ^ w * valueOfLimbs w rest

/-- Logical value of a BigUintVar: sum of limb_i * 2^(w*i). -/
def BigUintVar.value (w : ℕ) (x : BigUintVar) : ℕ := valueOfLimbs w x.limbs

/-- Range constraints emitted at allocation: every limb lies below 2^w. -/
def limbsWf (w : ℕ) (limbs : List ℕ) : Prop := ∀ l ∈ limbs, l < 2 ^ w

/-- Number of limbs of an allocation with the given bit bound: ceil(bound/w). -/
def numLimbs (w bound : ℕ) : ℕ := (bound + w - 1) / w

/-- Little-endian base-2^w limbs of a value, k limbs long. -/
def limbsOfNat (w : ℕ) : ℕ → ℕ → List ℕ
  | 0, _ => []
  | k + 1, v => v % 2 ^ w :: limbsOfNat w k (v / 2 ^ w)

/-- Modelled from the spec: §4.8 `inputize` of the missing `bn` module — the
pure function from a native value and bit bound to the ordered sequence of
public field elements a verifier must supply: the ceil(bound/w) little-endian
base-2^w digits of the value. -/
def inputize (w bound v : ℕ) : List ℕ := limbsOfNat w (numLimbs w bound) v

/-- Groups a flat little-endian bit sequence into k limbs of w bits each. -/
def chunkBits (w : ℕ) : ℕ → List Bool → List ℕ
  | 0, _ => []
  | k + 1, bits => bitsVal (bits.take w) :: chunkBits w k (bits.drop w)

/-- Modelled from the spec: §4.1 allocation (`new_witness` / `new_input`) of
the missing `bn` module — the wire assignment produced when allocating a
value inside the circuit: the value's little-endian bits are established by
per-limb bit decomposition and each group of w consecutive bits forms one
limb. -/
def newInputLimbs (w bound v : ℕ) : List ℕ :=
  chunkBits w (numLimbs w bound) (natBits (numLimbs w bound * w) v)

/-- Modelled from the spec: §4.2 `to_bits_le` of the missing `bn` module — the
little-endian boolean sequence spanning all limbs, reusing the per-limb bits
established at allocation. -/
def toBitsLe (w : ℕ) : List ℕ → List Bool
  | [] => []
  | l :: rest => natBits w l ++ toBitsLe w rest

/-- Modelled from the spec: §4.7 `enforce_equal_unaligned` of the missing `bn`
module — the emitted constraint equates the weighted-sum (positional)
expressions of the two operands over the field of characteristic P. -/
def enforceEqualUnalignedSat (P w : ℕ) (x y : BigUintVar) : Prop :=
  BigUintVar.value w x % P = BigUintVar.value w y % P

theorem limbsOfNat_eq_chunk (w : ℕ) (k v : ℕ) :
    limbsOfNat w k v = chunkBits w k (natBits (k * w) v) := by
  induction k generalizing v with
  | zero => rfl
  | succ k ih =>
      have hmul : (k + 1) * w = w + k * w := by ring
      have hlen : (natBits w v).length = w := natBits_length _ _
      rw [hmul, natBits_add]
      show v % 2 ^ w :: limbsOfNat w k (v / 2 ^ w)
          = bitsVal ((natBits w v ++ natBits (k * w) (v / 2 ^ w)).take w)
            :: chunkBits w k ((natBits w v ++ natBits (k * w) (v / 2 ^ w)).drop w)
      rw [List.take_left' hlen, List.drop_left' hlen]
      rw [bitsVal_natBits, ih]

theorem valueOfLimbs_lt {w : ℕ} {limbs : List ℕ} (h : limbsWf w limbs) :
    valueOfLimbs w limbs < 2 ^ (w * limbs.length) := by
  induction limbs with
  | nil => simp [valueOfLimbs]
  | cons l rest ih =>
      have hl : l < 2 ^ w := h l (List.mem_cons_self l rest)
      have hr : valueOfLimbs w rest < 2 ^ (w * rest.length) :=
        ih fun x hx => h x (List.mem_cons_of_mem l hx)
      show l + 2 ^ w * valueOfLimbs w rest < 2 ^ (w * (rest.length + 1))
      have hstep : 2 ^ (w * (rest.length + 1)) = 2 ^ w * 2 ^ (w * rest.length) := by
        rw [Nat.mul_succ, pow_add, mul_comm]
      rw [hstep]
      calc l + 2 ^ w * valueOfLimbs w rest
          < 2 ^ w + 2 ^ w * valueOfLimbs w rest := by omega
        _ = 2 ^ w * (valueOfLimbs w rest + 1) := by ring
        _ ≤ 2 ^ w * 2 ^ (w * rest.length) :=
            Nat.mul_le_mul_left _ (Nat.succ_le_of_lt hr)

theorem bitsVal_toBitsLe {w : ℕ} {limbs : List ℕ} (h : limbsWf w limbs) :
    bitsVal (toBitsLe w limbs) = valueOfLimbs w limbs := by
  induction limbs with
  | nil => rfl
  | cons l rest ih =>
      have hl : l < 2 ^ w := h l (List.mem_cons_self l rest)
      show bitsVal (natBits w l ++ toBitsLe w rest) = l + 2 ^ w * valueOfLimbs w rest
      rw [bitsVal_append, natBits_length, bitsVal_natBits_of_lt hl,
        ih fun x hx => h x (List.mem_cons_of_mem l hx)]

theorem natBits_ne_nil {len v : ℕ} (h : 0 < len) : natBits len v ≠ [] := by
  cases len with
  | zero => omega
  | succ l => simp [natBits]

theorem powmFn_ne_nil_eq {base M : ℕ} (hM : 0 < M) {bits : List Bool}
    (hbits : bits ≠ []) : powmFn base M bits = base ^ bitsVal bits % M := by
  cases bits with
  | nil => exact absurd rfl hbits
  | cons b rest => exact powmFn_eq hM b rest

theorem powmRel_pos_of_ne_nil {base M : ℕ} {bits : List Bool} {out : ℕ}
    (hbits : bits ≠ []) (h : powmRel base M bits out) : 0 < M := by
  cases bits with
  | nil => exact absurd rfl hbits
  | cons b rest => exact powmRel_pos h

/-- The relation circuit data, from `struct TestCircuit` in src/src/lib.rs
(lines 26-31): it holds the native values m, n, r and c. -/
structure TestCircuit where
  m : ℕ
  n : ℕ
  r : ℕ
  c : ℕ

/-- Satisfaction of the constraint system built by
`TestCircuit::generate_constraints` (src/src/lib.rs lines 33-54) on a witness
assignment (m, r) and public inputs (nn, g, n, c).  The allocations bound m
and n by N bits and nn, g, c, r by 2N bits; the constraints are the `powm`
chain of g over m's bits mod nn, the `powm` chain of r over n's bits mod nn,
the unreduced multiply of the two results, its reduction mod nn, and the
final equality of the reduced result with c (both operands bound-reduced and
aligned at 2N bits).  The gadget semantics (`powmRel`, `remRel`) are modelled
from the spec because the `bn` module is not among the provided sources. -/
def circuitSat (m nn g n c r : ℕ) : Prop :=
  m < 2 ^ N ∧ nn < 2 ^ (2 * N) ∧ g < 2 ^ (2 * N) ∧ n < 2 ^ N ∧
    c < 2 ^ (2 * N) ∧ r < 2 ^ (2 * N) ∧
    ∃ a b d, powmRel g nn (natBits N m) a ∧ powmRel r nn (natBits N n) b ∧
      remRel (a * b) nn d ∧ d = c

/-- Satisfaction of the circuit as built by the prover-side harness
(src/src/lib.rs lines 36-40, 105-130): `generate_constraints` assigns the
public inputs from the held n as nn = n*n and g = n+1, and the harness passes
c and n through unchanged. -/
def circuitSatProver (tc : TestCircuit) : Prop :=
  circuitSat tc.m (tc.n * tc.n) (tc.n + 1) tc.n tc.c tc.r

theorem circuitSat_characterization (m nn g n c r : ℕ) :
    circuitSat m nn g n c r ↔
      m < 2 ^ N ∧ n < 2 ^ N ∧ g < 2 ^ (2 * N) ∧ nn < 2 ^ (2 * N) ∧
        r < 2 ^ (2 * N) ∧ 0 < nn ∧ c = g ^ m * r ^ n % nn := by
  have hNpos : 0 < N := by norm_num [N]
  constructor
  · rintro ⟨hm, hnn, hg, hn, hc, hr, a, b, d, ha, hb, hd, hdc⟩
    have hbm : natBits N m ≠ [] := natBits_ne_nil hNpos
    have hbn : natBits N n ≠ [] := natBits_ne_nil hNpos
    have hpos : 0 < nn := powmRel_pos_of_ne_nil hbm ha
    have ha' : a = g ^ m % nn := by
      rw [powmRel_sound ha, powmFn_ne_nil_eq hpos hbm, bitsVal_natBits_of_lt hm]
    have hb' : b = r ^ n % nn := by
      rw [powmRel_sound hb, powmFn_ne_nil_eq hpos hbn, bitsVal_natBits_of_lt hn]
    have hd' : d = a * b % nn := remRel_out_eq hd
    refine ⟨hm, hn, hg, hnn, hr, hpos, ?_⟩
    rw [← hdc, hd', ha', hb', ← Nat.mul_mod]
  · rintro ⟨hm, hn, hg, hnn, hr, hpos, hceq⟩
    have hbm : natBits N m ≠ [] := natBits_ne_nil hNpos
    have hbn : natBits N n ≠ [] := natBits_ne_nil hNpos
    have hc2 : c < 2 ^ (2 * N) := by
      rw [hceq]
      exact lt_trans (Nat.mod_lt _ hpos) hnn
    refine ⟨hm, hnn, hg, hn, hc2, hr,
      powmFn g nn (natBits N m), powmFn r nn (natBits N n),
      powmFn g nn (natBits N m) * powmFn r nn (natBits N n) % nn,
      powmRel_powmFn hpos _, powmRel_powmFn hpos _, remRel_intro _ _ hpos, ?_⟩
    rw [powmFn_ne_nil_eq hpos hbm, powmFn_ne_nil_eq hpos hbn,
      bitsVal_natBits_of_lt hm, bitsVal_natBits_of_lt hn, ← Nat.mul_mod, hceq]

theorem zmod_natCast_pow_eq_one {p a e len : ℕ} (hlen : 0 < len)
    (he : e < 2 ^ len) (hp : 0 < p) (hv : powmFn a p (natBits len e) = 1) :
    ((a : ℕ) : ZMod p) ^ e = 1 := by
  have h1 : a ^ e % p = 1 := by
    rw [← bitsVal_natBits_of_lt he, ← powmFn_ne_nil_eq hp (natBits_ne_nil hlen), hv]
  calc ((a : ℕ) : ZMod p) ^ e = ((a ^ e : ℕ) : ZMod p) := (Nat.cast_pow a e).symm
    _ = ((a ^ e % p : ℕ) : ZMod p) := (ZMod.natCast_mod _ _).symm
    _ = ((1 : ℕ) : ZMod p) := by rw [h1]
    _ = 1 := Nat.cast_one

theorem zmod_natCast_pow_ne_one {p a e len : ℕ} (hlen : 0 < len)
    (he : e < 2 ^ len) (hp : 1 < p) (hv : powmFn a p (natBits len e) ≠ 1) :
    ((a : ℕ) : ZMod p) ^ e ≠ 1 := by
  have hp0 : 0 < p := lt_trans one_pos hp
  have h1 : a ^ e % p = powmFn a p (natBits len e) := by
    rw [powmFn_ne_nil_eq hp0 (natBits_ne_nil hlen), bitsVal_natBits_of_lt he]
  intro h
  apply hv
  have h2 : ((a ^ e : ℕ) : ZMod p) = ((1 : ℕ) : ZMod p) := by
    rw [Nat.cast_pow, Nat.cast_one]
    exact h
  have h3 : a ^ e % p = 1 % p := (ZMod.natCast_eq_natCast_iff' _ _ _).mp h2
  rw [Nat.mod_eq_of_lt hp, h1] at h3
  exact h3

/-- The 512-bit prime 2713 * 2^500 + 1, used to instantiate the bit-length
hypotheses of the relation-circuit completeness theorem on a concrete input. -/
def p512 : ℕ := 2713 * 2 ^ 500 + 1

theorem p512_prime : Nat.Prime p512 := by
  have hp1 : 1 < p512 := by norm_num [p512]
  have hp0 : 0 < p512 := lt_trans one_pos hp1
  refine lucas_primality p512 ((3 : ℕ) : ZMod p512) ?_ ?_
  · exact @zmod_natCast_pow_eq_one p512 3 (p512 - 1) 512 (by norm_num) (by decide)
      hp0 (by decide)
  · intro q hq hdvd
    have hfact : p512 - 1 = 2713 * 2 ^ 500 := by norm_num [p512]
    rw [hfact] at hdvd
    have hq2 : q = 2713 ∨ q = 2 := by
      rcases (Nat.Prime.dvd_mul hq).mp hdvd with h | h
      · left
        exact (Nat.prime_dvd_prime_iff_eq hq (by norm_num)).mp h
      · right
        exact (Nat.prime_dvd_prime_iff_eq hq Nat.prime_two).mp (hq.dvd_of_dvd_pow h)
    rcases hq2 with rfl | rfl
    · exact @zmod_natCast_pow_ne_one p512 3 ((p512 - 1) / 2713) 512 (by norm_num)
        (by decide) hp1 (by decide)
    · exact @zmod_natCast_pow_ne_one p512 3 ((p512 - 1) / 2) 512 (by norm_num)
        (by decide) hp1 (by decide)

theorem pq_lt_pow_N {p q : ℕ} (hpu : p < 2 ^ 512) (hqu : q < 2 ^ 512) :
    p * q < 2 ^ N := by
  have h1 : (2 : ℕ) ^ 512 * 2 ^ 512 = 2 ^ N := by
    rw [← pow_add]
    norm_num [N]
  calc p * q < 2 ^ 512 * 2 ^ 512 :=
        mul_lt_mul'' hpu hqu (Nat.zero_le p) (Nat.zero_le q)
    _ = 2 ^ N := h1

theorem pow_N_lt_pow_2N : (2 : ℕ) ^ N < 2 ^ (2 * N) := by
  apply Nat.pow_lt_pow_right one_lt_two
  norm_num [N]

/-- C1: for every pair of primes p, q of bit-length N/2 (N = 1024), every
m < n and r < n with n = p*q, g = n+1 and c = g^m * r^n mod n^2, the
constraint system built by `TestCircuit::generate_constraints` with witnesses
m, r and public inputs nn = n^2, g, n, c is satisfied.  The subsequent
Groth16 proof generation and verification against the `inputize`-encoded
public inputs (nn, g, n, c) belong to the external proving system, which the
spec treats as a trusted collaborator. -/
theorem relation_circuit_satisfiable (p q m r : ℕ)
    (hp : Nat.Prime p) (hq : Nat.Prime q)
    (hpl : 2 ^ 511 ≤ p) (hpu : p < 2 ^ 512)
    (hql : 2 ^ 511 ≤ q) (hqu : q < 2 ^ 512)
    (hm : m < p * q) (hr : r < p * q) :
    circuitSat m (p * q * (p * q)) (p * q + 1) (p * q)
      ((p * q + 1) ^ m * r ^ (p * q) % (p * q * (p * q))) r := by
  have hnlt : p * q < 2 ^ N := pq_lt_pow_N hpu hqu
  have hNN : (2 : ℕ) ^ N < 2 ^ (2 * N) := pow_N_lt_pow_2N
  have hpos : 0 < p * q * (p * q) := by
    have h2 := hp.two_le
    have h3 := hq.two_le
    positivity
  apply (circuitSat_characterization _ _ _ _ _ _).mpr
  refine ⟨lt_trans hm hnlt, hnlt, by omega, ?_, by omega, hpos, rfl⟩
  calc p * q * (p * q) < 2 ^ N * 2 ^ N :=
        mul_lt_mul'' hnlt hnlt (Nat.zero_le _) (Nat.zero_le _)
    _ = 2 ^ (2 * N) := by rw [← pow_add, two_mul]

/-- Witness for C1: the concrete 512-bit prime p512 taken for both p and q,
with m = r = 1. -/
theorem relation_circuit_satisfiable_witness :
    circuitSat 1 (p512 * p512 * (p512 * p512)) (p512 * p512 + 1) (p512 * p512)
      ((p512 * p512 + 1) ^ 1 * 1 ^ (p512 * p512) % (p512 * p512 * (p512 * p512))) 1 :=
  relation_circuit_satisfiable p512 p512 1 1 p512_prime p512_prime
    (by decide) (by decide) (by decide) (by decide) (by decide) (by decide)

/-- C2 counterexample: with the witnesses m = 0, r = 1 fixed, the system with
public inputs c = 1, n = 2, g = 3 = n+1, nn = 4 = n^2 is satisfied, and it
stays satisfied after mutating the public g from 3 to the different value 5,
because with a zero exponent the base g is irrelevant to the relation. -/
theorem mutate_public_counterexample :
    circuitSat 0 4 3 2 1 1 ∧ circuitSat 0 4 5 2 1 1 ∧ (5 : ℕ) ≠ 3 := by
  refine ⟨?_, ?_, by norm_num⟩
  · exact (circuitSat_characterization 0 4 3 2 1 1).mpr
      ⟨by decide, by decide, by decide, by decide, by decide, by decide, by decide⟩
  · exact (circuitSat_characterization 0 4 5 2 1 1).mpr
      ⟨by decide, by decide, by decide, by decide, by decide, by decide, by decide⟩

/-- C2 (amended): with the witness assignment (m, r) and the public inputs
nn, g, n fixed, changing the public c to any different value makes the
constraint system unsatisfiable; mutating g, n or nn need not do so. -/
theorem mutate_public_c_unsat {m nn g n c r : ℕ} (h : circuitSat m nn g n c r)
    {c' : ℕ} (hne : c' ≠ c) : ¬ circuitSat m nn g n c' r := by
  intro h'
  obtain ⟨_, _, _, _, _, _, hc⟩ := (circuitSat_characterization _ _ _ _ _ _).mp h
  obtain ⟨_, _, _, _, _, _, hc'⟩ := (circuitSat_characterization _ _ _ _ _ _).mp h'
  exact hne (hc'.trans hc.symm)

/-- Witness for the amended C2: mutating c from 1 to 0 breaks the satisfied
instance of the counterexample. -/
theorem mutate_public_c_unsat_witness : ¬ circuitSat 0 4 3 2 0 1 :=
  mutate_public_c_unsat
    ((circuitSat_characterization 0 4 3 2 1 1).mpr
      ⟨by decide, by decide, by decide, by decide, by decide, by decide, by decide⟩)
    (by norm_num)

/-- C3 counterexample: the constraint system is satisfied with the public
n = 1, which is not a product of two primes; the relation circuit therefore
does not hold primes p and q from which n is derived — `struct TestCircuit`
(src/src/lib.rs lines 26-31) stores n itself, and the test harness derives
n = p*q outside the circuit. -/
theorem circuit_holds_n_counterexample :
    circuitSat 0 1 1 1 0 0 ∧ ¬ ∃ p q, Nat.Prime p ∧ Nat.Prime q ∧ p * q = 1 := by
  constructor
  · exact (circuitSat_characterization 0 1 1 1 0 0).mpr
      ⟨by decide, by decide, by decide, by decide, by decide, by decide, by decide⟩
  · rintro ⟨p, q, hp, hq, hpq⟩
    have h1 : p ≤ 1 := Nat.le_of_dvd one_pos ⟨q, hpq.symm⟩
    have h2 := hp.two_le
    omega

/-- C3 (amended): the relation circuit holds m (witness), n itself (not p
and q; the test harness derives n = p*q outside the circuit), r (witness)
and c (public); built by the prover it assigns g = n+1 and nn = n^2,
evaluates g^m mod nn and r^n mod nn by modular exponentiation, combines them
via an unreduced multiply followed by a reduction, and asserts equality of
the bound-reduced, aligned result with the public c. -/
theorem circuit_data_and_relation (tc : TestCircuit) :
    circuitSatProver tc ↔
      tc.m < 2 ^ N ∧ tc.n < 2 ^ N ∧ 0 < tc.n ∧ tc.r < 2 ^ (2 * N) ∧
        tc.c = (tc.n + 1) ^ tc.m * tc.r ^ tc.n % (tc.n * tc.n) := by
  unfold circuitSatProver
  rw [circuitSat_characterization]
  constructor
  · rintro ⟨h1, h2, h3, h4, h5, h6, h7⟩
    have hn : 0 < tc.n := by
      rcases Nat.eq_zero_or_pos tc.n with h | h
      · rw [h] at h6
        simp at h6
      · exact h
    exact ⟨h1, h2, hn, h5, h7⟩
  · rintro ⟨h1, h2, h3, h4, h5⟩
    have hNN := pow_N_lt_pow_2N
    refine ⟨h1, h2, by omega, ?_, h4, Nat.mul_pos h3 h3, h5⟩
    calc tc.n * tc.n < 2 ^ N * 2 ^ N :=
          mul_lt_mul'' h2 h2 (Nat.zero_le _) (Nat.zero_le _)
      _ = 2 ^ (2 * N) := by rw [← pow_add, two_mul]

/-- C4: any satisfying assignment of the `rem(modulus, bound)` gadget yields
an output with 0 ≤ out < modulus and dividend ≡ out (mod modulus) — out is
exactly dividend mod modulus, enforced through the checked identity
dividend = q*modulus + out together with the order check; when no consistent
(q, out) pair exists the gadget relation is unsatisfiable by definition. -/
theorem rem_correct (dividend M out : ℕ) (h : remRel dividend M out) :
    out < M ∧ dividend % M = out := by
  refine ⟨?_, (remRel_out_eq h).symm⟩
  obtain ⟨q, _, hlt⟩ := h
  exact hlt

/-- Witness for C4 at dividend 7, modulus 3, prover-chosen quotient 2 and
remainder 1. -/
theorem rem_correct_witness : 1 < 3 ∧ 7 % 3 = 1 :=
  rem_correct 7 3 1 ⟨2, by norm_num⟩

/-- C5: `inputize` is a pure function whose output equals, element for
element and in the same order, the public wire assignment that `new_input`
produces when allocating the same value with the same bound inside a
circuit (radix-2^w digit splitting versus per-limb bit decomposition). -/
theorem inputize_matches_new_input (w bound v : ℕ) :
    inputize w bound v = newInputLimbs w bound v :=
  limbsOfNat_eq_chunk w (numLimbs w bound) v

/-- C6: within the field-size precondition — both operands' maximum possible
values lie below the field characteristic P — the constraint emitted by
`enforce_equal_unaligned` is satisfied exactly when the two (possibly
differently bounded) encodings have the same integer value. -/
theorem enforce_equal_unaligned_correct (P w : ℕ) (x y : BigUintVar)
    (hx : limbsWf w x.limbs) (hy : limbsWf w y.limbs)
    (hxP : 2 ^ (w * x.limbs.length) ≤ P) (hyP : 2 ^ (w * y.limbs.length) ≤ P) :
    enforceEqualUnalignedSat P w x y ↔
      BigUintVar.value w x = BigUintVar.value w y := by
  unfold enforceEqualUnalignedSat
  have h1 : BigUintVar.value w x < P := lt_of_lt_of_le (valueOfLimbs_lt hx) hxP
  have h2 : BigUintVar.value w y < P := lt_of_lt_of_le (valueOfLimbs_lt hy) hyP
  rw [Nat.mod_eq_of_lt h1, Nat.mod_eq_of_lt h2]

/-- Witness for C6: two encodings of 17 with different bounds (two 4-bit
limbs versus three), both maxima below the characteristic 65537. -/
theorem enforce_equal_unaligned_correct_witness :
    enforceEqualUnalignedSat 65537 4 ⟨[1, 1], 8⟩ ⟨[1, 1, 0], 12⟩ :=
  (enforce_equal_unaligned_correct 65537 4 ⟨[1, 1], 8⟩ ⟨[1, 1, 0], 12⟩
    (by simp only [limbsWf]; decide) (by simp only [limbsWf]; decide)
    (by decide) (by decide)).mpr (by decide)

/-- C8: reconstructing an integer from the little-endian bit sequence
produced by `to_bits_le` (sum of bit_i * 2^i over all limbs' bits)
reproduces the BigUintVar's value exactly. -/
theorem to_bits_le_round_trip (w : ℕ) (x : BigUintVar)
    (hx : limbsWf w x.limbs) :
    bitsVal (toBitsLe w x.limbs) = BigUintVar.value w x :=
  bitsVal_toBitsLe hx

/-- Witness for C8 on the two-limb variable with limbs [3, 5] at width 4. -/
theorem to_bits_le_round_trip_witness :
    bitsVal (toBitsLe 4 [3, 5]) = BigUintVar.value 4 ⟨[3, 5], 8⟩ :=
  to_bits_le_round_trip 4 ⟨[3, 5], 8⟩ (by simp only [limbsWf]; decide)

/-- C9: `TestCircuit::generate_constraints` allocates g and nn as public
inputs unconstrained relative to n — a satisfying assignment exists exactly
when the per-value range bounds hold, nn > 0, and c = g^m * r^n mod nn, for
whatever g and nn the verifier supplies; no constraint forces g = n+1 or
nn = n^2. -/
theorem public_relation_characterization (m nn g n c r : ℕ) :
    circuitSat m nn g n c r ↔
      m < 2 ^ N ∧ n < 2 ^ N ∧ g < 2 ^ (2 * N) ∧ nn < 2 ^ (2 * N) ∧
        r < 2 ^ (2 * N) ∧ 0 < nn ∧ c = g ^ m * r ^ n % nn :=
  circuitSat_characterization m nn g n c r

/-- C10: the witness r is allocated with bit bound 2N and m with bound N,
and no constraint r < n or m < n is emitted: the system is satisfied for
every m < 2^N and r < 2^(2N) with c = g^m * r^n mod nn, not only for m, r
below n. -/
theorem witness_range_only (m n g nn r : ℕ) (hm : m < 2 ^ N) (hn : n < 2 ^ N)
    (hg : g < 2 ^ (2 * N)) (hnn : nn < 2 ^ (2 * N)) (hpos : 0 < nn)
    (hr : r < 2 ^ (2 * N)) :
    circuitSat m nn g n (g ^ m * r ^ n % nn) r :=
  (circuitSat_characterization _ _ _ _ _ _).mpr ⟨hm, hn, hg, hnn, hr, hpos, rfl⟩

/-- Witness for C10 with m = 3 and r = 5 both exceeding the public n = 2. -/
theorem witness_range_only_witness :
    circuitSat 3 9 3 2 (3 ^ 3 * 5 ^ 2 % 9) 5 :=
  witness_range_only 3 2 3 9 5 (by decide) (by decide) (by decide) (by decide)
    (by decide) (by decide)

end R1CSPaillier
